import Mathlib

/-!
# Verification of the SARSA agent and its training/evaluation loop

Shallow embedding of `src/1_basics/1_sarsa/sarsa.py` and
`src/1_basics/1_sarsa/train_sarsa.py`.

Modelling conventions:
* Python floats are modelled as exact rationals (`ℚ`); the spec's numeric
  statements (update targets, the epsilon schedule) are about real arithmetic,
  not floating-point rounding.
* The agent's `q_table` is a Python `defaultdict(lambda: 0)`.  A `defaultdict`
  read (`d[k]`) returns the stored value, or inserts the key with the default
  `0` and returns `0` when the key is absent.  We model the table as an
  association list (`QTable`), a read as the pair (`qget`, `touch`): `qget`
  is the value produced, `touch` is the possibly-grown table.
* Randomness is passed in explicitly: each `random.random()` draw is a
  rational `r` (valid draws satisfy `0 ≤ r < 1`), and each
  `random.randint` / `random.choice` draw is a natural number `k` selecting
  an element of the candidate range/list (via `k % length`, which reaches
  every element).
* Fallible Python calls (`max([])`, `random.randint(0, -1)`,
  `random.choice([])` raise) are modelled with `Option`: `none` is a raised
  exception.
-/

/-- Keys of the Q-table: `(observation, action)` pairs of Python ints. -/
abbrev QKey := ℤ × ℤ

/-- The agent's `q_table`: `defaultdict(lambda: 0)` modelled as an insertion
ordered association list (each key occurs at most once; new keys are appended,
matching Python dict insertion order). -/
abbrev QTable := List (QKey × ℚ)

/-- Dict lookup without default: `some v` if the key is stored, else `none`. -/
def qlookup : QTable → QKey → Option ℚ
  | [], _ => none
  | (k, v) :: rest, key => if k = key then some v else qlookup rest key

/-- Value produced by a `defaultdict` read `self.q_table[key]`: the stored
value, or the default `0` when the key is absent. -/
def qget (t : QTable) (key : QKey) : ℚ :=
  (qlookup t key).getD 0

/-- Table after a `defaultdict` read `self.q_table[key]`: unchanged when the
key is stored, otherwise the key is inserted with the default value `0`
(auto-vivification). -/
def touch (t : QTable) (key : QKey) : QTable :=
  match qlookup t key with
  | some _ => t
  | none => t ++ [(key, 0)]

/-- Dict write `self.q_table[key] = v`: overwrite in place, or append. -/
def qset : QTable → QKey → ℚ → QTable
  | [], key, v => [(key, v)]
  | (k, w) :: rest, key, v =>
      if k = key then (key, v) :: rest else (k, w) :: qset rest key v

/-- The set of keys stored in the table (in insertion order). -/
def qkeys (t : QTable) : List QKey :=
  t.map Prod.fst

/-- Agent state: the fields set up by `Agent.__init__` and `SARSA.__init__`
(`n_acts`, `epsilon`, `gamma`, `alpha`, `q_table`). -/
structure SARSA where
  n_acts : ℤ
  epsilon : ℚ
  gamma : ℚ
  alpha : ℚ
  q_table : QTable
  deriving DecidableEq, Repr

/-- `range(n_acts)` as a list of Python ints (empty when `n_acts ≤ 0`). -/
def actionRange (n : ℤ) : List ℤ :=
  (List.range n.toNat).map (fun (i : ℕ) => (i : ℤ))

/-- The list comprehension
`[self.q_table[(obs, act)] for act in range(self.n_acts)]`: reads every
`(obs, a)` sequentially through the `defaultdict`, returning the final table
and the list of values read. -/
def readVals (t : QTable) (obs : ℤ) : List ℤ → QTable × List ℚ
  | [] => (t, [])
  | a :: rest =>
      let v := qget t (obs, a)
      let p := readVals (touch t (obs, a)) obs rest
      (p.1, v :: p.2)

/-- Python `max(list)`: `none` (a `ValueError`) on the empty list. -/
def pyMax : List ℚ → Option ℚ
  | [] => none
  | v :: rest =>
      match pyMax rest with
      | none => some v
      | some m => some (max v m)

/-- The comprehension
`[idx for idx, act_val in enumerate(act_vals) if act_val == max_val]`,
with `i` the index of the first element of the list. -/
def idxsEq : List ℚ → ℚ → ℕ → List ℤ
  | [], _, _ => []
  | v :: rest, m, i =>
      if v = m then (i : ℤ) :: idxsEq rest m (i + 1) else idxsEq rest m (i + 1)

/-- `Agent.act(obs)` (sarsa.py lines 50-58), epsilon-greedy selection.
`r` is the `random.random()` draw; `k` selects among the candidates of
whichever random branch runs (`random.randint(0, n_acts - 1)` resp.
`random.choice(max_acts)`).  Returns the chosen action together with the
agent after the call (the `defaultdict` reads of the exploitation branch can
grow the table); `none` models a raised exception. -/
def act (ag : SARSA) (obs : ℤ) (r : ℚ) (k : ℕ) : Option (ℤ × SARSA) :=
  if r < ag.epsilon then
    if 1 ≤ ag.n_acts then
      some (((k % ag.n_acts.toNat : ℕ) : ℤ), ag)
    else
      none
  else
    match pyMax (readVals ag.q_table obs (actionRange ag.n_acts)).2 with
    | none => none
    | some max_val =>
        match idxsEq (readVals ag.q_table obs (actionRange ag.n_acts)).2 max_val 0 with
        | [] => none
        | j :: js =>
            some ((j :: js).getD (k % (j :: js).length) 0,
                  { ag with q_table := (readVals ag.q_table obs (actionRange ag.n_acts)).1 })

/-- `SARSA.learn(obs, action, reward, n_obs, n_action, done)`
(sarsa.py lines 99-125).  Every table access goes through the `defaultdict`
read model (`qget` + `touch`); the `+=` write is a read followed by `qset`.
Returns the updated Q-value together with the updated agent. -/
def learn (ag : SARSA) (obs action : ℤ) (reward : ℚ) (n_obs n_action : ℤ)
    (done : Bool) : ℚ × SARSA :=
  let q_val := qget ag.q_table (obs, action)
  let t1 := touch ag.q_table (obs, action)
  let n_q_val := qget t1 (n_obs, n_action)
  let t2 := touch t1 (n_obs, n_action)
  let target := reward + ag.gamma * n_q_val * (1 - (if done then (1 : ℚ) else 0))
  let t3 := qset t2 (obs, action) (qget t2 (obs, action) + ag.alpha * (target - q_val))
  (qget t3 (obs, action), { ag with q_table := t3 })

/-- `SARSA.schedule_hyperparameters(timestep, max_timestep)`
(sarsa.py lines 127-136): sets
`epsilon = 1.0 - (min(1.0, timestep / (0.07 * max_timestep))) * 0.95`. -/
def schedule_hyperparameters (ag : SARSA) (timestep max_timestep : ℕ) : SARSA :=
  { ag with
    epsilon := 1 - (min 1 ((timestep : ℚ) / ((7 / 100) * (max_timestep : ℚ)))) * (95 / 100) }

/-! ## The training / evaluation loops of train_sarsa.py

The Gymnasium environment is an external collaborator with a `reset`/`step`
contract; we model it as a pair of (pure) functions.  `reset` takes the
episode number so that distinct evaluation episodes may start in distinct
states; `step` returns `(next_obs, reward, terminated, truncated)`. -/

structure Env where
  reset : ℕ → ℤ
  step : ℤ → ℤ → ℤ × ℚ × Bool × Bool

/-- The inner `while not done and steps < max_steps` loop of `evaluate`
(train_sarsa.py lines 41-49).  `fuel` is `max_steps - steps`; `draws` is the
stream of random draws, consumed at index `di` (one per `act` call).
Returns `(episodic_return, agent, next draw index)`. -/
def evalLoop (env : Env) (draws : ℕ → ℚ × ℕ) :
    ℕ → Bool → ℤ → ℚ → SARSA → ℕ → Option (ℚ × SARSA × ℕ)
  | 0, _, _, ret, ag, di => some (ret, ag, di)
  | fuel + 1, done, obs, ret, ag, di =>
      if done then some (ret, ag, di)
      else
        match act ag obs (draws di).1 (draws di).2 with
        | none => none
        | some (a, ag') =>
            match env.step obs a with
            | (n_obs, reward, terminated, truncated) =>
                evalLoop env draws fuel (terminated || truncated) n_obs (ret + reward) ag'
                  (di + 1)

/-- The `for eps_num in range(eval_episodes)` loop of `evaluate`
(train_sarsa.py lines 35-51), accumulating the list of episodic returns. -/
def evalEpisodes (env : Env) (draws : ℕ → ℚ × ℕ) (maxSteps : ℕ) :
    ℕ → ℕ → SARSA → ℕ → List ℚ → Option (List ℚ × SARSA)
  | 0, _, ag, _, rets => some (rets, ag)
  | n + 1, epsNum, ag, di, rets =>
      match evalLoop env draws maxSteps false (env.reset epsNum) 0 ag di with
      | none => none
      | some (ret, ag', di') =>
          evalEpisodes env draws maxSteps n (epsNum + 1) ag' di' (rets ++ [ret])

/-- `evaluate(env, agent, max_steps, eval_episodes)` (train_sarsa.py lines
24-56): runs `eval_episodes` episodes, each capped at `max_steps` steps,
acting only.  Returns the list of episodic returns together with the agent
after evaluation (the mean is `mean`; the standard deviation needs a square
root and no claim refers to it). -/
def evaluate (env : Env) (ag : SARSA) (maxSteps eval_episodes : ℕ)
    (draws : ℕ → ℚ × ℕ) : Option (List ℚ × SARSA) :=
  evalEpisodes env draws maxSteps eval_episodes 0 ag 0 []

/-- `np.mean` of the collected episodic returns. -/
def mean (l : List ℚ) : ℚ :=
  l.sum / l.length

/-- Events observable on the agent during training, for stating call-order
properties of the training loop. -/
inductive Ev
  | sched
  | actEv
  | learnEv
  deriving DecidableEq, Repr

/-- The inner `while not done and steps < config["episode_length"]` loop of
`train` (train_sarsa.py lines 89-100).  `fuel` is `episode_length - steps`;
`completedSteps` is constant during the episode (it is only advanced after
the inner loop, line 103).  The trace `tr` records, in order, every
`schedule_hyperparameters`, `act` and `learn` call made on the agent.
Returns `(agent, next draw index, episodic_return, trace)`. -/
def trainInner (env : Env) (draws : ℕ → ℚ × ℕ) (completedSteps totalSteps : ℕ) :
    ℕ → Bool → ℤ → ℤ → ℚ → SARSA → ℕ → List Ev → Option (SARSA × ℕ × ℚ × List Ev)
  | 0, _, _, _, ret, ag, di, tr => some (ag, di, ret, tr)
  | fuel + 1, done, obs, a, ret, ag, di, tr =>
      if done then some (ag, di, ret, tr)
      else
        match env.step obs a with
        | (n_obs, reward, terminated, truncated) =>
            match act (schedule_hyperparameters ag completedSteps totalSteps) n_obs
                (draws di).1 (draws di).2 with
            | none => none
            | some (n_a, ag2) =>
                trainInner env draws completedSteps totalSteps fuel
                  (terminated || truncated) n_obs n_a (ret + reward)
                  (learn ag2 obs a reward n_obs n_a (terminated || truncated)).2 (di + 1)
                  (tr ++ [Ev.sched, Ev.actEv, Ev.learnEv])

/-- One episode of the outer training loop of `train` (train_sarsa.py lines
81-100): reset, take the first action (line 87), then run the inner loop.
The trace starts with the `Ev.actEv` of that first action. -/
def trainEpisode (env : Env) (draws : ℕ → ℚ × ℕ)
    (episode_length completedSteps totalSteps : ℕ) (ag : SARSA) :
    Option (SARSA × ℕ × ℚ × List Ev) :=
  match act ag (env.reset 0) (draws 0).1 (draws 0).2 with
  | none => none
  | some (a, ag1) =>
      trainInner env draws completedSteps totalSteps episode_length false (env.reset 0) a 0
        ag1 1 [Ev.actEv]

/-! ## Lemmas about the table model -/

theorem qlookup_append (t l : QTable) (key : QKey) :
    qlookup (t ++ l) key =
      match qlookup t key with
      | some v => some v
      | none => qlookup l key := by
  induction t with
  | nil => simp [qlookup]
  | cons p rest ih =>
      by_cases h : p.1 = key <;> simp [qlookup, h, ih]

/-- A `defaultdict` read changes no value observable through later reads. -/
theorem qget_touch (t : QTable) (key key' : QKey) :
    qget (touch t key) key' = qget t key' := by
  unfold touch
  cases h : qlookup t key with
  | some v => rfl
  | none =>
      unfold qget
      rw [qlookup_append]
      cases h' : qlookup t key' with
      | some v => simp
      | none =>
          by_cases hk : key = key' <;> simp [qlookup, hk]

theorem qlookup_mem_keys (t : QTable) (key : QKey) (v : ℚ)
    (h : qlookup t key = some v) : key ∈ qkeys t := by
  induction t with
  | nil => simp [qlookup] at h
  | cons p rest ih =>
      unfold qlookup at h
      by_cases hp : p.1 = key
      · simp [qkeys, hp]
      · rw [if_neg hp] at h
        simp [qkeys] at ih ⊢
        exact Or.inr (ih h)

/-- A `defaultdict` read of a key leaves the key stored in the table. -/
theorem mem_qkeys_touch (t : QTable) (key : QKey) : key ∈ qkeys (touch t key) := by
  unfold touch
  cases h : qlookup t key with
  | some v => exact qlookup_mem_keys t key v h
  | none => simp [qkeys]

theorem qget_qset_self (t : QTable) (key : QKey) (v : ℚ) :
    qget (qset t key v) key = v := by
  induction t with
  | nil => simp [qset, qget, qlookup]
  | cons p rest ih =>
      by_cases h : p.1 = key <;> simp [qset, qget, qlookup, h] at ih ⊢
      exact ih

theorem qget_qset_ne (t : QTable) (key key' : QKey) (v : ℚ) (h : key' ≠ key) :
    qget (qset t key v) key' = qget t key' := by
  induction t with
  | nil => simp [qset, qget, qlookup, Ne.symm h]
  | cons p rest ih =>
      obtain ⟨k0, v0⟩ := p
      by_cases hp : k0 = key
      · subst hp
        simp [qset, qget, qlookup, Ne.symm h]
      · by_cases hp' : k0 = key'
        · simp [qset, qget, qlookup, hp, hp', h]
        · simpa [qset, qget, qlookup, hp, hp'] using ih

/-! ## Lemmas about the helpers of `act` -/

theorem length_actionRange (n : ℤ) : (actionRange n).length = n.toNat := by
  rw [actionRange, List.length_map, List.length_range]

theorem get_actionRange (n : ℤ) (d : ℕ) (hd : d < (actionRange n).length) :
    (actionRange n).get ⟨d, hd⟩ = (d : ℤ) := by
  simp only [actionRange, List.get_eq_getElem, List.getElem_map, List.getElem_range]

theorem mem_actionRange (n b : ℤ) : b ∈ actionRange n ↔ 0 ≤ b ∧ b < n := by
  simp only [actionRange, List.mem_map, List.mem_range]
  constructor
  · rintro ⟨i, hi, rfl⟩
    omega
  · rintro ⟨hb0, hbn⟩
    exact ⟨b.toNat, by omega, by omega⟩

theorem readVals_snd (obs : ℤ) (as : List ℤ) : ∀ t : QTable,
    (readVals t obs as).2 = as.map (fun a => qget t (obs, a)) := by
  induction as with
  | nil => intro t; rfl
  | cons a rest ih =>
      intro t
      have hf : (fun b => qget (touch t (obs, a)) (obs, b)) = fun b => qget t (obs, b) :=
        funext fun b => qget_touch t (obs, a) (obs, b)
      simp [readVals, ih, hf]

theorem qget_readVals_fst (obs : ℤ) (as : List ℤ) : ∀ (t : QTable) (key : QKey),
    qget ((readVals t obs as).1) key = qget t key := by
  induction as with
  | nil => intro t key; rfl
  | cons a rest ih =>
      intro t key
      simp [readVals, ih, qget_touch]

theorem pyMax_isSome (v : ℚ) (l : List ℚ) : ∃ m, pyMax (v :: l) = some m := by
  cases h : pyMax l <;> simp [pyMax, h]

theorem pyMax_eq_none (l : List ℚ) : pyMax l = none ↔ l = [] := by
  cases l with
  | nil => simp [pyMax]
  | cons v rest =>
      obtain ⟨m, hm⟩ := pyMax_isSome v rest
      simp [hm]

theorem le_pyMax (l : List ℚ) (m x : ℚ) (hm : pyMax l = some m) (hx : x ∈ l) : x ≤ m := by
  induction l generalizing m with
  | nil => simp at hx
  | cons v rest ih =>
      unfold pyMax at hm
      cases h : pyMax rest with
      | none =>
          rw [h] at hm
          injection hm with hm
          rw [pyMax_eq_none] at h
          subst h
          rw [List.mem_singleton] at hx
          rw [hx, hm]
      | some m' =>
          rw [h] at hm
          injection hm with hm
          subst hm
          cases hx with
          | head => exact le_max_left _ _
          | tail _ hx' => exact le_trans (ih m' h hx') (le_max_right _ _)

theorem pyMax_mem (l : List ℚ) (m : ℚ) (hm : pyMax l = some m) : m ∈ l := by
  induction l generalizing m with
  | nil => simp [pyMax] at hm
  | cons v rest ih =>
      unfold pyMax at hm
      cases h : pyMax rest with
      | none =>
          rw [h] at hm
          injection hm with hm
          simp [hm]
      | some m' =>
          rw [h] at hm
          injection hm with hm
          rcases max_choice v m' with hc | hc
          · rw [← hm, hc]
            exact List.mem_cons_self _ _
          · rw [← hm, hc]
            exact List.mem_cons_of_mem _ (ih m' h)

theorem mem_idxsEq (m : ℚ) (l : List ℚ) : ∀ (i : ℕ) (j : ℤ), j ∈ idxsEq l m i →
    ∃ d : ℕ, d < l.length ∧ l.getD d 0 = m ∧ j = ((i + d : ℕ) : ℤ) := by
  induction l with
  | nil => intro i j hj; simp [idxsEq] at hj
  | cons v rest ih =>
      intro i j hj
      unfold idxsEq at hj
      by_cases hv : v = m
      · rw [if_pos hv] at hj
        cases hj with
        | head => exact ⟨0, by simp, by simpa using hv, by simp⟩
        | tail _ hj' =>
            obtain ⟨d, hd, hget, hij⟩ := ih (i + 1) j hj'
            exact ⟨d + 1, by simpa using Nat.succ_lt_succ hd, by simpa using hget, by omega⟩
      · rw [if_neg hv] at hj
        obtain ⟨d, hd, hget, hij⟩ := ih (i + 1) j hj
        exact ⟨d + 1, by simpa using Nat.succ_lt_succ hd, by simpa using hget, by omega⟩

theorem idxsEq_ne_nil (m : ℚ) (l : List ℚ) (hm : m ∈ l) : ∀ i : ℕ, idxsEq l m i ≠ [] := by
  induction l with
  | nil => simp at hm
  | cons v rest ih =>
      intro i
      unfold idxsEq
      by_cases hv : v = m
      · simp [hv]
      · rw [if_neg hv]
        have hm' : m ∈ rest := by
          cases hm with
          | head => exact absurd rfl hv
          | tail _ h => exact h
        exact ih hm' (i + 1)

theorem getD_mem_of_lt (l : List ℤ) (n : ℕ) (h : n < l.length) : l.getD n 0 ∈ l := by
  rw [List.getD_eq_getElem?_getD, List.getElem?_eq_getElem h]
  exact List.getElem_mem h

theorem getD_map_q (l : List ℤ) (f : ℤ → ℚ) (d : ℕ) (h : d < l.length) :
    (l.map f).getD d 0 = f (l.getD d 0) := by
  rw [List.getD_eq_getElem?_getD, List.getD_eq_getElem?_getD,
    List.getElem?_eq_getElem (by simpa using h), List.getElem?_eq_getElem h, List.getElem_map]
  simp

theorem getD_actionRange (n : ℤ) (d : ℕ) (h : d < (actionRange n).length) :
    (actionRange n).getD d 0 = (d : ℤ) := by
  rw [List.getD_eq_getElem?_getD, List.getElem?_eq_getElem h]
  simp [actionRange]

/-! ## Characterization of `act` -/

/-- Exploration branch: a draw `r < epsilon` returns a uniformly drawn action
and leaves the agent untouched. -/
theorem act_explore_spec (ag : SARSA) (obs : ℤ) (r : ℚ) (k : ℕ)
    (hr : r < ag.epsilon) (hn : 1 ≤ ag.n_acts) :
    act ag obs r k = some (((k % ag.n_acts.toNat : ℕ) : ℤ), ag) := by
  unfold act
  rw [if_pos hr, if_pos hn]

/-- Exploitation branch: a draw `r ≥ epsilon` returns an action of maximal
Q-value among `0 .. n_acts - 1`, and the agent's table is only changed by the
`defaultdict` reads of the scanned keys. -/
theorem act_exploit_spec (ag : SARSA) (obs : ℤ) (r : ℚ) (k : ℕ)
    (hr : ¬ r < ag.epsilon) (hn : 1 ≤ ag.n_acts) :
    ∃ a : ℤ,
      act ag obs r k =
        some (a, { ag with q_table := (readVals ag.q_table obs (actionRange ag.n_acts)).1 }) ∧
      0 ≤ a ∧ a < ag.n_acts ∧
      ∀ b : ℤ, 0 ≤ b → b < ag.n_acts →
        qget ag.q_table (obs, b) ≤ qget ag.q_table (obs, a) := by
  have hvals : (readVals ag.q_table obs (actionRange ag.n_acts)).2 =
      (actionRange ag.n_acts).map (fun x => qget ag.q_table (obs, x)) :=
    readVals_snd obs (actionRange ag.n_acts) ag.q_table
  have hlen : (readVals ag.q_table obs (actionRange ag.n_acts)).2.length = ag.n_acts.toNat := by
    rw [hvals, List.length_map, length_actionRange]
  have hpos : 0 < (readVals ag.q_table obs (actionRange ag.n_acts)).2.length := by
    rw [hlen]; omega
  obtain ⟨m, hm⟩ : ∃ m, pyMax (readVals ag.q_table obs (actionRange ag.n_acts)).2 = some m := by
    cases hv : (readVals ag.q_table obs (actionRange ag.n_acts)).2 with
    | nil => rw [hv] at hpos; simp at hpos
    | cons v vs => rw [← hv]; rw [hv]; exact pyMax_isSome v vs
  have hmem : m ∈ (readVals ag.q_table obs (actionRange ag.n_acts)).2 :=
    pyMax_mem _ m hm
  have hne : idxsEq (readVals ag.q_table obs (actionRange ag.n_acts)).2 m 0 ≠ [] :=
    idxsEq_ne_nil m _ hmem 0
  cases hidx : idxsEq (readVals ag.q_table obs (actionRange ag.n_acts)).2 m 0 with
  | nil => exact absurd hidx hne
  | cons j js =>
      have hmalen : 0 < (j :: js).length := by simp
      have hkmod : k % (j :: js).length < (j :: js).length := Nat.mod_lt _ hmalen
      have hamem : (j :: js).getD (k % (j :: js).length) 0 ∈
          idxsEq (readVals ag.q_table obs (actionRange ag.n_acts)).2 m 0 := by
        rw [hidx]
        exact getD_mem_of_lt _ _ hkmod
      obtain ⟨d, hd, hget, had⟩ := mem_idxsEq m _ 0 _ hamem
      have hd' : d < ag.n_acts.toNat := by rw [← hlen]; exact hd
      have hdlen : d < (actionRange ag.n_acts).length := by
        rwa [hvals, List.length_map] at hd
      have hget' : qget ag.q_table (obs, (d : ℤ)) = m := by
        rw [hvals, getD_map_q _ _ _ hdlen, getD_actionRange _ _ hdlen] at hget
        exact hget
      have haq : qget ag.q_table (obs, (j :: js).getD (k % (j :: js).length) 0) = m := by
        rw [had]
        simpa using hget'
      refine ⟨(j :: js).getD (k % (j :: js).length) 0, ?_, ?_, ?_, ?_⟩
      · unfold act
        rw [if_neg hr]
        simp only [hm, hidx]
      · rw [had]; omega
      · rw [had]; omega
      · intro b hb0 hbn
        rw [haq]
        refine le_pyMax _ m _ hm ?_
        rw [hvals]
        exact List.mem_map.mpr ⟨b, (mem_actionRange _ b).mpr ⟨hb0, hbn⟩, rfl⟩

/-- With `n_acts ≤ 0` both branches of `act` raise (`random.randint(0, -1)`
resp. `max([])` on the empty candidate list). -/
theorem act_nonpos (ag : SARSA) (obs : ℤ) (r : ℚ) (k : ℕ) (hn : ag.n_acts ≤ 0) :
    act ag obs r k = none := by
  have har : actionRange ag.n_acts = [] := by
    unfold actionRange
    rw [(by omega : ag.n_acts.toNat = 0)]
    rfl
  unfold act
  by_cases hr : r < ag.epsilon
  · rw [if_pos hr, if_neg (by omega)]
  · rw [if_neg hr, har]
    rfl

/-- A successful `act` call never touches `epsilon` (nor the other scalar
fields) and never changes any value observable by a table lookup. -/
theorem act_preserves (ag : SARSA) (obs : ℤ) (r : ℚ) (k : ℕ) (a : ℤ) (ag' : SARSA)
    (h : act ag obs r k = some (a, ag')) :
    ag'.n_acts = ag.n_acts ∧ ag'.epsilon = ag.epsilon ∧ ag'.gamma = ag.gamma ∧
      ag'.alpha = ag.alpha ∧ ∀ key : QKey, qget ag'.q_table key = qget ag.q_table key := by
  by_cases hn : 1 ≤ ag.n_acts
  · by_cases hr : r < ag.epsilon
    · rw [act_explore_spec ag obs r k hr hn] at h
      injection h with h'
      injection h' with h1 h2
      subst h2
      exact ⟨rfl, rfl, rfl, rfl, fun key => rfl⟩
    · obtain ⟨a0, hact, _, _, _⟩ := act_exploit_spec ag obs r k hr hn
      rw [hact] at h
      injection h with h'
      injection h' with h1 h2
      subst h2
      exact ⟨rfl, rfl, rfl, rfl, fun key => qget_readVals_fst obs _ ag.q_table key⟩
  · rw [act_nonpos ag obs r k (by omega)] at h
    exact absurd h (by simp)

/-! ## Characterization of `learn` -/

/-- The returned Q-value of `learn` is
`current + alpha * ((reward + gamma * bootstrap * (1 - done)) - current)`,
with `current` and `bootstrap` the (lazily defaulted) lookups of the table
before the call. -/
theorem learn_val (ag : SARSA) (obs action : ℤ) (reward : ℚ) (n_obs n_action : ℤ)
    (done : Bool) :
    (learn ag obs action reward n_obs n_action done).1 =
      qget ag.q_table (obs, action) +
        ag.alpha * ((reward + ag.gamma * qget ag.q_table (n_obs, n_action) *
          (1 - (if done then (1 : ℚ) else 0))) - qget ag.q_table (obs, action)) := by
  simp only [learn]
  rw [qget_qset_self]
  simp only [qget_touch]

/-- The value `learn` stores for `(obs, action)` is the value it returns. -/
theorem learn_stored (ag : SARSA) (obs action : ℤ) (reward : ℚ) (n_obs n_action : ℤ)
    (done : Bool) :
    qget (learn ag obs action reward n_obs n_action done).2.q_table (obs, action) =
      (learn ag obs action reward n_obs n_action done).1 :=
  rfl

/-- `learn` changes no stored value other than the `(obs, action)` entry. -/
theorem learn_other_key (ag : SARSA) (obs action : ℤ) (reward : ℚ) (n_obs n_action : ℤ)
    (done : Bool) (key : QKey) (hkey : key ≠ (obs, action)) :
    qget (learn ag obs action reward n_obs n_action done).2.q_table key =
      qget ag.q_table key := by
  simp only [learn]
  rw [qget_qset_ne _ _ _ _ hkey]
  simp only [qget_touch]

/-! ## Frame lemmas for `evaluate` -/

theorem evalLoop_preserves (env : Env) (draws : ℕ → ℚ × ℕ) :
    ∀ (fuel : ℕ) (done : Bool) (obs : ℤ) (ret : ℚ) (ag : SARSA) (di : ℕ)
      (ret' : ℚ) (ag' : SARSA) (di' : ℕ),
      evalLoop env draws fuel done obs ret ag di = some (ret', ag', di') →
      ag'.epsilon = ag.epsilon ∧
        ∀ key : QKey, qget ag'.q_table key = qget ag.q_table key := by
  intro fuel
  induction fuel with
  | zero =>
      intro done obs ret ag di ret' ag' di' h
      simp only [evalLoop, Option.some.injEq, Prod.mk.injEq] at h
      obtain ⟨-, rfl, -⟩ := h
      exact ⟨rfl, fun key => rfl⟩
  | succ fuel ih =>
      intro done obs ret ag di ret' ag' di' h
      cases done with
      | true =>
          simp only [evalLoop, if_pos rfl, Option.some.injEq, Prod.mk.injEq] at h
          obtain ⟨-, rfl, -⟩ := h
          exact ⟨rfl, fun key => rfl⟩
      | false =>
          simp only [evalLoop] at h
          rw [if_neg (by simp)] at h
          cases hact : act ag obs (draws di).1 (draws di).2 with
          | none =>
              rw [hact] at h
              exact absurd h (by simp)
          | some pr =>
              obtain ⟨a, ag1⟩ := pr
              rw [hact] at h
              obtain ⟨he, hq⟩ := ih _ _ _ ag1 (di + 1) ret' ag' di' h
              obtain ⟨-, he2, -, -, hq2⟩ :=
                act_preserves ag obs (draws di).1 (draws di).2 a ag1 hact
              exact ⟨he.trans he2, fun key => (hq key).trans (hq2 key)⟩

theorem evalEpisodes_preserves (env : Env) (draws : ℕ → ℚ × ℕ) (maxSteps : ℕ) :
    ∀ (n epsNum : ℕ) (ag : SARSA) (di : ℕ) (rets rets' : List ℚ) (ag' : SARSA),
      evalEpisodes env draws maxSteps n epsNum ag di rets = some (rets', ag') →
      ag'.epsilon = ag.epsilon ∧
        ∀ key : QKey, qget ag'.q_table key = qget ag.q_table key := by
  intro n
  induction n with
  | zero =>
      intro epsNum ag di rets rets' ag' h
      simp only [evalEpisodes, Option.some.injEq, Prod.mk.injEq] at h
      obtain ⟨-, rfl⟩ := h
      exact ⟨rfl, fun key => rfl⟩
  | succ n ih =>
      intro epsNum ag di rets rets' ag' h
      simp only [evalEpisodes] at h
      cases hloop : evalLoop env draws maxSteps false (env.reset epsNum) 0 ag di with
      | none =>
          rw [hloop] at h
          exact absurd h (by simp)
      | some pr =>
          obtain ⟨ret, ag1, di1⟩ := pr
          rw [hloop] at h
          obtain ⟨he, hq⟩ := ih (epsNum + 1) ag1 di1 (rets ++ [ret]) rets' ag' h
          obtain ⟨he2, hq2⟩ :=
            evalLoop_preserves env draws maxSteps false (env.reset epsNum) 0 ag di ret ag1 di1
              hloop
          exact ⟨he.trans he2, fun key => (hq key).trans (hq2 key)⟩

/-- Scalar fields of the agent are untouched by `learn`. -/
theorem learn_alpha (ag : SARSA) (obs action : ℤ) (reward : ℚ) (n_obs n_action : ℤ)
    (done : Bool) :
    (learn ag obs action reward n_obs n_action done).2.alpha = ag.alpha :=
  rfl

theorem learn_gamma (ag : SARSA) (obs action : ℤ) (reward : ℚ) (n_obs n_action : ℤ)
    (done : Bool) :
    (learn ag obs action reward n_obs n_action done).2.gamma = ag.gamma :=
  rfl

/-! ## Claims -/

/-- C1 (amended): a completed `evaluate` run leaves the agent's `epsilon` and
every `(state, action) → value` association observable via table lookup
unchanged (it performs `act` calls only, no `learn` and no
`schedule_hyperparameters`); the table's key set, however, may grow, because
the `defaultdict` reads of `act`'s exploitation branch materialize scanned
keys with the default value 0. -/
theorem evaluate_preserves_lookups_and_epsilon (env : Env) (ag : SARSA)
    (maxSteps eval_episodes : ℕ) (draws : ℕ → ℚ × ℕ) (rets : List ℚ) (ag' : SARSA)
    (h : evaluate env ag maxSteps eval_episodes draws = some (rets, ag')) :
    ag'.epsilon = ag.epsilon ∧
      ∀ key : QKey, qget ag'.q_table key = qget ag.q_table key :=
  evalEpisodes_preserves env draws maxSteps eval_episodes 0 ag 0 [] rets ag' h

/-- Witness for C1's theorem: a one-episode, one-step evaluation run on an
immediately terminating environment. -/
theorem evaluate_preserves_lookups_and_epsilon_witness :
    (⟨1, 1/2, 9/10, 1/10, [(((0 : ℤ), (0 : ℤ)), 0)]⟩ : SARSA).epsilon =
        (⟨1, 1/2, 9/10, 1/10, []⟩ : SARSA).epsilon ∧
      qget (⟨1, 1/2, 9/10, 1/10, [(((0 : ℤ), (0 : ℤ)), 0)]⟩ : SARSA).q_table
          ((0 : ℤ), (0 : ℤ)) =
        qget (⟨1, 1/2, 9/10, 1/10, []⟩ : SARSA).q_table ((0 : ℤ), (0 : ℤ)) :=
  have h := evaluate_preserves_lookups_and_epsilon
    ⟨fun _ => 0, fun _ _ => (0, 0, true, false)⟩ ⟨1, 1/2, 9/10, 1/10, []⟩ 1 1
    (fun _ => (2, 0)) [0] ⟨1, 1/2, 9/10, 1/10, [(((0 : ℤ), (0 : ℤ)), 0)]⟩
    (by norm_num [evaluate, evalEpisodes, evalLoop, act, readVals, actionRange, qget,
      qlookup, touch, pyMax, idxsEq, List.range_succ, -Prod.mk_zero_zero])
  ⟨h.1, h.2 ((0 : ℤ), (0 : ℤ))⟩

/-- C1 counterexample: the claim that the table's key set is identical before
and after `evaluate` is false — a single greedy `act` on the empty table
materializes the scanned key `(0, 0)`. -/
theorem evaluate_grows_key_set :
    (evaluate ⟨fun _ => 0, fun _ _ => (0, 0, true, false)⟩ ⟨1, 1/2, 9/10, 1/10, []⟩ 1 1
        (fun _ => (2, 0))).map (fun p => qkeys p.2.q_table) =
      some [((0 : ℤ), (0 : ℤ))] ∧
    qkeys (⟨1, 1/2, 9/10, 1/10, []⟩ : SARSA).q_table = [] ∧
    ([((0 : ℤ), (0 : ℤ))] : List QKey) ≠ [] := by
  refine ⟨?_, rfl, by simp⟩
  norm_num [evaluate, evalEpisodes, evalLoop, act, readVals, actionRange, qget, qlookup,
    touch, pyMax, idxsEq, qkeys, List.range_succ, -Prod.mk_zero_zero]

/-- C3 (code-bug evidence): in an episode whose environment terminates after
two steps, the trace of agent calls made by the training loop is
`act, schedule, act, learn, schedule, act, learn`: `schedule_hyperparameters`
is invoked twice — once per inner step, not once per episode — and the
episode's first `act` call (train_sarsa.py line 87) precedes every
`schedule_hyperparameters` invocation, contradicting the claimed
"exactly once, before any act call of the episode" and sarsa.py's own
docstring "called before every episode". -/
theorem train_episode_schedule_trace :
    (trainEpisode ⟨fun _ => 0, fun obs _ => (obs + 1, (0 : ℚ), obs + 1 == 2, false)⟩
        (fun _ => (2, 0)) 3 0 1000 ⟨1, 9/10, 99/100, 1/10, []⟩).map (fun p => p.2.2.2) =
      some [Ev.actEv, Ev.sched, Ev.actEv, Ev.learnEv, Ev.sched, Ev.actEv, Ev.learnEv] ∧
    ([Ev.actEv, Ev.sched, Ev.actEv, Ev.learnEv, Ev.sched, Ev.actEv,
        Ev.learnEv].count Ev.sched = 2 ∧
      [Ev.actEv, Ev.sched, Ev.actEv, Ev.learnEv, Ev.sched, Ev.actEv,
        Ev.learnEv].head? = some Ev.actEv) :=
  ⟨by norm_num [trainEpisode, trainInner, act, schedule_hyperparameters, learn, readVals,
      actionRange, qget, qlookup, touch, qset, pyMax, idxsEq, List.range_succ,
      -Prod.mk_zero_zero],
    by decide⟩

/-- C2 (amended): reading a never-written `(state, action)` key returns
exactly 0, and the read changes no value observable by any later lookup;
however, the `defaultdict` read does materialize the key: it is stored (with
value 0) in the table afterwards. -/
theorem unseen_key_reads_zero_and_materializes (t : QTable) (key : QKey)
    (h : qlookup t key = none) :
    qget t key = 0 ∧
      (∀ key' : QKey, qget (touch t key) key' = qget t key') ∧
      key ∈ qkeys (touch t key) :=
  ⟨by simp [qget, h], fun key' => qget_touch t key key', mem_qkeys_touch t key⟩

/-- Witness for C2's theorem at the empty table and key `(0, 0)`. -/
theorem unseen_key_reads_zero_and_materializes_witness :
    qget [] ((0 : ℤ), (0 : ℤ)) = 0 ∧
      qget (touch [] ((0 : ℤ), (0 : ℤ))) ((5 : ℤ), (7 : ℤ)) = qget [] ((5 : ℤ), (7 : ℤ)) ∧
      ((0 : ℤ), (0 : ℤ)) ∈ qkeys (touch [] ((0 : ℤ), (0 : ℤ))) :=
  have h := unseen_key_reads_zero_and_materializes [] ((0 : ℤ), (0 : ℤ)) rfl
  ⟨h.1, h.2.1 ((5 : ℤ), (7 : ℤ)), h.2.2⟩

/-- C2 counterexample: the claim that a read of an unseen key leaves the
table's key set unchanged is false — reading `(0, 0)` from the empty
`defaultdict` inserts the key. -/
theorem defaultdict_read_materializes_key :
    qlookup [] ((0 : ℤ), (0 : ℤ)) = none ∧
      qget [] ((0 : ℤ), (0 : ℤ)) = 0 ∧
      qkeys (touch ([] : QTable) ((0 : ℤ), (0 : ℤ))) ≠ qkeys ([] : QTable) := by
  refine ⟨rfl, rfl, ?_⟩
  simp [touch, qlookup, qkeys]

/-- C4: `learn(state, action, reward, next_state, next_action, terminal)`
returns, and stores at `(state, action)`, the value
`current + alpha * ((reward + gamma * bootstrap * (1 - terminal)) - current)`
where `current` and `bootstrap` are the lookups of `(state, action)` and
`(next_state, next_action)` before the call; in particular, from an empty
table with `gamma = 0.9`, `alpha = 0.5`, `reward = 10`, `terminal = False`
the updated value is exactly 5. -/
theorem learn_update_formula (ag : SARSA) (obs action : ℤ) (reward : ℚ)
    (n_obs n_action : ℤ) (done : Bool) :
    ((learn ag obs action reward n_obs n_action done).1 =
        qget ag.q_table (obs, action) +
          ag.alpha * ((reward + ag.gamma * qget ag.q_table (n_obs, n_action) *
            (1 - (if done then (1 : ℚ) else 0))) - qget ag.q_table (obs, action)) ∧
      qget (learn ag obs action reward n_obs n_action done).2.q_table (obs, action) =
        (learn ag obs action reward n_obs n_action done).1) ∧
    (learn ⟨4, 1/2, 9/10, 1/2, []⟩ 0 1 10 2 0 false).1 = 5 := by
  refine ⟨⟨learn_val ag obs action reward n_obs n_action done,
    learn_stored ag obs action reward n_obs n_action done⟩, ?_⟩
  rw [learn_val ⟨4, 1/2, 9/10, 1/2, []⟩ 0 1 10 2 0 false]
  norm_num [qget, qlookup]

/-- C5: with `terminal = True` the update is
`current + alpha * (reward - current)` and is independent of the value stored
at `(next_state, next_action)`: two tables agreeing at `(state, action)`
produce the same updated value whatever they store elsewhere. -/
theorem learn_terminal_ignores_bootstrap (ag : SARSA) (obs action : ℤ) (reward : ℚ)
    (n_obs n_action : ℤ) (t1 t2 : QTable)
    (h : qget t1 (obs, action) = qget t2 (obs, action)) :
    (learn { ag with q_table := t1 } obs action reward n_obs n_action true).1 =
        qget t1 (obs, action) + ag.alpha * (reward - qget t1 (obs, action)) ∧
      (learn { ag with q_table := t1 } obs action reward n_obs n_action true).1 =
        (learn { ag with q_table := t2 } obs action reward n_obs n_action true).1 := by
  have h1 := learn_val { ag with q_table := t1 } obs action reward n_obs n_action true
  have h2 := learn_val { ag with q_table := t2 } obs action reward n_obs n_action true
  norm_num at h1 h2
  constructor
  · rw [h1]
  · rw [h1, h2, h]

/-- Witness for C5's theorem: the empty table versus a table holding a large
bootstrap value `1000000` at `(next_state, next_action) = (2, 0)`. -/
theorem learn_terminal_ignores_bootstrap_witness :
    (learn ⟨1, 0, 9/10, 1/2, []⟩ 0 1 10 2 0 true).1 =
        qget [] ((0 : ℤ), (1 : ℤ)) + (1/2) * (10 - qget [] ((0 : ℤ), (1 : ℤ))) ∧
      (learn ⟨1, 0, 9/10, 1/2, []⟩ 0 1 10 2 0 true).1 =
        (learn ⟨1, 0, 9/10, 1/2, [(((2 : ℤ), (0 : ℤ)), 1000000)]⟩ 0 1 10 2 0 true).1 :=
  learn_terminal_ignores_bootstrap ⟨1, 0, 9/10, 1/2, []⟩ 0 1 10 2 0 []
    [(((2 : ℤ), (0 : ℤ)), 1000000)] rfl

/-- C6: `schedule_hyperparameters(timestep, max_timestep)` sets
`epsilon = 1 - min(1, timestep / (0.07 * max_timestep)) * 0.95`; epsilon is 1
at timestep 0, exactly `0.05 = 1/20` as soon as `timestep` reaches 7% of
`max_timestep`, stays there for all larger timesteps, and is strictly above
the floor before 7%. -/
theorem schedule_epsilon_decay (ag : SARSA) (timestep max_timestep : ℕ)
    (hm : 0 < max_timestep) :
    (schedule_hyperparameters ag timestep max_timestep).epsilon =
        1 - min 1 ((timestep : ℚ) / ((7 / 100) * (max_timestep : ℚ))) * (95 / 100) ∧
      (timestep = 0 → (schedule_hyperparameters ag timestep max_timestep).epsilon = 1) ∧
      (7 * max_timestep ≤ 100 * timestep →
        (schedule_hyperparameters ag timestep max_timestep).epsilon = 1 / 20) ∧
      (100 * timestep < 7 * max_timestep →
        1 / 20 < (schedule_hyperparameters ag timestep max_timestep).epsilon) := by
  have hformula : (schedule_hyperparameters ag timestep max_timestep).epsilon =
      1 - min 1 ((timestep : ℚ) / ((7 / 100) * (max_timestep : ℚ))) * (95 / 100) := rfl
  have hmq : (0 : ℚ) < (7 / 100) * (max_timestep : ℚ) := by
    have hq : (0 : ℚ) < (max_timestep : ℚ) := by exact_mod_cast hm
    exact mul_pos (by norm_num) hq
  refine ⟨hformula, ?_, ?_, ?_⟩
  · intro h0
    subst h0
    rw [hformula]
    norm_num
  · intro hle
    have hle' : (7 : ℚ) * (max_timestep : ℚ) ≤ 100 * (timestep : ℚ) := by
      exact_mod_cast hle
    have hx : (1 : ℚ) ≤ (timestep : ℚ) / ((7 / 100) * (max_timestep : ℚ)) := by
      rw [le_div_iff₀ hmq]
      linarith
    rw [hformula, min_eq_left hx]
    norm_num
  · intro hlt
    have hlt' : (100 : ℚ) * (timestep : ℚ) < 7 * (max_timestep : ℚ) := by
      exact_mod_cast hlt
    have hx : (timestep : ℚ) / ((7 / 100) * (max_timestep : ℚ)) < 1 := by
      rw [div_lt_one hmq]
      linarith
    rw [hformula, min_eq_right (le_of_lt hx)]
    linarith

/-- Witness for C6's theorem: timestep 70 of 1000 (exactly 7%) yields
epsilon `= 1/20 = 0.05`. -/
theorem schedule_epsilon_decay_witness :
    (schedule_hyperparameters ⟨1, 0, 9/10, 1/2, []⟩ 70 1000).epsilon = 1 / 20 :=
  (schedule_epsilon_decay ⟨1, 0, 9/10, 1/2, []⟩ 70 1000 (by norm_num)).2.2.1 (by norm_num)

/-- C7: with `epsilon = 0` every valid draw takes the exploitation branch:
`act` returns an action whose table value is maximal over all `n_acts`
actions, and when the maximum is attained by a unique action, that action is
returned for every draw. -/
theorem act_greedy_returns_argmax (ag : SARSA) (obs : ℤ) (r : ℚ) (k : ℕ)
    (heps : ag.epsilon = 0) (hr : 0 ≤ r) (hn : 1 ≤ ag.n_acts) :
    ∃ a : ℤ, ∃ ag' : SARSA,
      act ag obs r k = some (a, ag') ∧
      0 ≤ a ∧ a < ag.n_acts ∧
      (∀ b : ℤ, 0 ≤ b → b < ag.n_acts →
        qget ag.q_table (obs, b) ≤ qget ag.q_table (obs, a)) ∧
      (∀ a0 : ℤ, 0 ≤ a0 → a0 < ag.n_acts →
        (∀ b : ℤ, 0 ≤ b → b < ag.n_acts → b ≠ a0 →
          qget ag.q_table (obs, b) < qget ag.q_table (obs, a0)) →
        a = a0) := by
  have hrlt : ¬ r < ag.epsilon := by
    rw [heps]
    exact not_lt.mpr hr
  obtain ⟨a, hact, h0, hlt, hmax⟩ := act_exploit_spec ag obs r k hrlt hn
  refine ⟨a, _, hact, h0, hlt, hmax, ?_⟩
  intro a0 h00 h0n huniq
  by_contra hne
  have h1 := huniq a h0 hlt hne
  have h2 := hmax a0 h00 h0n
  linarith

/-- Witness for C7's theorem: `epsilon = 0`, three actions, unique maximum at
action 1 (value 5): `act` returns action 1. -/
theorem act_greedy_returns_argmax_witness :
    (act ⟨3, 0, 9/10, 1/2, [(((0 : ℤ), (1 : ℤ)), 5)]⟩ 0 (1/2) 0).map Prod.fst = some 1 := by
  obtain ⟨a, ag', hact, h0, hlt, hmax, huniq⟩ :=
    act_greedy_returns_argmax ⟨3, 0, 9/10, 1/2, [(((0 : ℤ), (1 : ℤ)), 5)]⟩ 0 (1/2) 0 rfl
      (by norm_num) (by norm_num)
  have ha : a = 1 := by
    apply huniq 1 (by norm_num) (by norm_num)
    intro b hb0 hb3 hbne
    interval_cases b
    · norm_num [qget, qlookup]
    · exact absurd rfl hbne
    · norm_num [qget, qlookup]
  rw [hact, ha]
  rfl

/-- C8 (amended): from a table whose every lookup is zero, two `learn` calls
with identical arguments are not idempotent — the stored value changes on the
second call — provided `alpha ∉ {0, 1}`, `reward ≠ 0`, and
`(state, action) ≠ (next_state, next_action)` (at `alpha = 1` the update is a
pure overwrite and is idempotent, see the counterexample). -/
theorem learn_not_idempotent (ag : SARSA) (obs action : ℤ) (reward : ℚ)
    (n_obs n_action : ℤ) (done : Bool)
    (h0 : ∀ key : QKey, qget ag.q_table key = 0)
    (ha0 : ag.alpha ≠ 0) (ha1 : ag.alpha ≠ 1) (hrw : reward ≠ 0)
    (hkey : ((obs, action) : QKey) ≠ (n_obs, n_action)) :
    (learn (learn ag obs action reward n_obs n_action done).2
        obs action reward n_obs n_action done).1 ≠
      (learn ag obs action reward n_obs n_action done).1 := by
  have h1 := learn_val ag obs action reward n_obs n_action done
  rw [h0 ((obs, action) : QKey), h0 ((n_obs, n_action) : QKey)] at h1
  have hv1 : (learn ag obs action reward n_obs n_action done).1 = ag.alpha * reward := by
    rw [h1]
    ring
  have h2 := learn_val (learn ag obs action reward n_obs n_action done).2
    obs action reward n_obs n_action done
  rw [learn_stored, learn_other_key ag obs action reward n_obs n_action done
      ((n_obs, n_action) : QKey) (Ne.symm hkey), h0 ((n_obs, n_action) : QKey),
    learn_alpha, learn_gamma, hv1] at h2
  rw [h2, hv1]
  intro heq
  have hprod : ag.alpha * reward * (1 - ag.alpha) ≠ 0 :=
    mul_ne_zero (mul_ne_zero ha0 hrw) (sub_ne_zero.mpr (Ne.symm ha1))
  apply hprod
  linear_combination heq

/-- Witness for C8's theorem: `alpha = 1/2`, `reward = 10`, distinct keys,
empty (all-zero) table. -/
theorem learn_not_idempotent_witness :
    (learn (learn ⟨1, 0, 9/10, 1/2, []⟩ 0 0 10 1 0 false).2 0 0 10 1 0 false).1 ≠
      (learn ⟨1, 0, 9/10, 1/2, []⟩ 0 0 10 1 0 false).1 :=
  learn_not_idempotent ⟨1, 0, 9/10, 1/2, []⟩ 0 0 10 1 0 false (fun key => rfl)
    (by norm_num) (by norm_num) (by norm_num) (by decide)

/-- C8 counterexample: as universally stated the claim is false — with
`alpha = 1` the update overwrites, and the second identical `learn` call from
the all-zero table stores the same value `10` again. -/
theorem learn_idempotent_at_alpha_one :
    (learn ⟨1, 0, 9/10, 1, []⟩ 0 0 10 1 0 false).1 = 10 ∧
      (learn (learn ⟨1, 0, 9/10, 1, []⟩ 0 0 10 1 0 false).2 0 0 10 1 0 false).1 =
        (learn ⟨1, 0, 9/10, 1, []⟩ 0 0 10 1 0 false).1 := by
  constructor
  · rw [learn_val]
    norm_num [qget, qlookup]
  · rw [learn_val, learn_val, learn_stored, learn_val,
      learn_other_key ⟨1, 0, 9/10, 1, []⟩ 0 0 10 1 0 false (((1 : ℤ), (0 : ℤ)) : QKey)
        (by decide)]
    norm_num [qget, qlookup]

/-- C9: with `n_acts ≤ 0` every call of `act` raises, whatever the draws —
the exploration branch's `random.randint(0, n_acts - 1)` and the
exploitation branch's `max([])` both fail on an empty action range. -/
theorem act_fails_nonpositive_n_acts (ag : SARSA) (obs : ℤ) (r : ℚ) (k : ℕ)
    (hn : ag.n_acts ≤ 0) :
    act ag obs r k = none :=
  act_nonpos ag obs r k hn

/-- Witness for C9's theorem at `n_acts = 0`. -/
theorem act_fails_nonpositive_n_acts_witness :
    act ⟨0, 1/2, 9/10, 1/2, []⟩ 0 (1/4) 3 = none :=
  act_fails_nonpositive_n_acts ⟨0, 1/2, 9/10, 1/2, []⟩ 0 (1/4) 3 (by norm_num)

/-- C10: with `n_acts ≥ 1`, for every state, table, epsilon and draws, `act`
returns an action `a` with `0 ≤ a < n_acts` (both branches select from the
valid index range). -/
theorem act_action_in_range (ag : SARSA) (obs : ℤ) (r : ℚ) (k : ℕ)
    (hn : 1 ≤ ag.n_acts) :
    ∃ a : ℤ, ∃ ag' : SARSA, act ag obs r k = some (a, ag') ∧ 0 ≤ a ∧ a < ag.n_acts := by
  by_cases hr : r < ag.epsilon
  · refine ⟨_, _, act_explore_spec ag obs r k hr hn, Int.natCast_nonneg _, ?_⟩
    have hmod : k % ag.n_acts.toNat < ag.n_acts.toNat := Nat.mod_lt _ (by omega)
    omega
  · obtain ⟨a, hact, h0, hlt, _⟩ := act_exploit_spec ag obs r k hr hn
    exact ⟨a, _, hact, h0, hlt⟩

/-- Witness for C10's theorem: exploration branch (`epsilon = 1`, draw
`r = 1/2 < 1`, `k = 5`) over three actions. -/
theorem act_action_in_range_witness :
    Option.elim (act ⟨3, 1, 9/10, 1/2, []⟩ 0 (1/2) 5) False
      (fun p => 0 ≤ p.1 ∧ p.1 < 3) := by
  obtain ⟨a, ag', hact, h0, hlt⟩ :=
    act_action_in_range ⟨3, 1, 9/10, 1/2, []⟩ 0 (1/2) 5 (by norm_num)
  rw [hact]
  exact ⟨h0, hlt⟩
